import Mathlib

/-!
Verification of the `bitendian` crate: endian-aware conversion between
fixed-width numeric values and byte arrays (`src/lib.rs`), and the
asynchronous read/write futures that drive partial I/O to completion
(`src/futures.rs`, `src/tokio.rs`; the two modules' `poll` bodies are
semantically identical).

Embedding conventions:
- A numeric value of byte width `N` is represented by its bit pattern, a
  `Nat` strictly below `256 ^ N`.  Every supported type (unsigned/signed
  integers, floats) is in bijection with bit patterns of its width, and the
  Rust primitives `to_le_bytes` / `from_le_bytes` etc. are exactly the byte
  serialisation of that bit pattern, which is what we define here.
- A byte array `[u8; N]` is a `List Nat` of length `N` whose entries are
  the bytes.
- The `cfg(target_endian)` compile-time choice is an explicit
  `TargetEndian` parameter.
- An asynchronous reader (`AsyncRead`) is a script of poll outcomes,
  consumed one element per `poll_read`; likewise for writers.
-/

namespace Bitendian

/-- The build target's byte order, i.e. the `cfg(target_endian = ...)`
compile-time switch in `src/lib.rs`. -/
inductive TargetEndian
  | big
  | little
deriving DecidableEq, Repr

/-- The `Endian` enum of `src/lib.rs`. -/
inductive Endian
  | little
  | big
  | network
  | native
deriving DecidableEq, Repr

/-- The little-endian byte serialisation of the bit pattern `v` at width
`n`: byte `i` is `v / 256 ^ i % 256`.  This is the semantics of the Rust
primitive `to_le_bytes` that `impl BitEndian` delegates to. -/
def to_le_bytes : Nat → Nat → List Nat
  | 0, _ => []
  | n + 1, v => v % 256 :: to_le_bytes n (v / 256)

/-- The big-endian byte serialisation: the little-endian one reversed,
which is the semantics of the Rust primitive `to_be_bytes`. -/
def to_be_bytes (n v : Nat) : List Nat :=
  (to_le_bytes n v).reverse

/-- The native-endian byte serialisation (`to_ne_bytes`): little-endian on
a little-endian target, big-endian on a big-endian target. -/
def to_ne_bytes (te : TargetEndian) (n v : Nat) : List Nat :=
  match te with
  | .big => to_be_bytes n v
  | .little => to_le_bytes n v

/-- Decode a little-endian byte list to a bit pattern (`from_le_bytes`). -/
def from_le_bytes : List Nat → Nat
  | [] => 0
  | b :: bs => b + 256 * from_le_bytes bs

/-- Decode a big-endian byte list (`from_be_bytes`). -/
def from_be_bytes (bs : List Nat) : Nat :=
  from_le_bytes bs.reverse

/-- Decode a native-endian byte list (`from_ne_bytes`). -/
def from_ne_bytes (te : TargetEndian) (bs : List Nat) : Nat :=
  match te with
  | .big => from_be_bytes bs
  | .little => from_le_bytes bs

/-- `BitEndian::to_bytes_endian` (src/lib.rs lines 104-113): dispatch on a
run-time `Endian` value. -/
def to_bytes_endian (te : TargetEndian) (n v : Nat) (endian : Endian) : List Nat :=
  match endian with
  | .little => to_le_bytes n v
  | .big | .network => to_be_bytes n v
  | .native => to_ne_bytes te n v

/-- `BitEndian::from_bytes_endian` (src/lib.rs lines 130-139). -/
def from_bytes_endian (te : TargetEndian) (bs : List Nat) (endian : Endian) : Nat :=
  match endian with
  | .little => from_le_bytes bs
  | .big | .network => from_be_bytes bs
  | .native => from_ne_bytes te bs

/-- `Endian::canonical` (src/lib.rs lines 206-215); the two `cfg` arms for
`Native` become a match on the target endianness. -/
def Endian.canonical (te : TargetEndian) : Endian → Endian
  | .little => .little
  | .big | .network => .big
  | .native =>
    match te with
    | .big => .big
    | .little => .little

/-- `Endian::is_big` (src/lib.rs lines 218-220). -/
def Endian.is_big (te : TargetEndian) (e : Endian) : Bool :=
  decide (Endian.canonical te e = Endian.big)

/-- `Endian::is_little` (src/lib.rs lines 223-225). -/
def Endian.is_little (te : TargetEndian) (e : Endian) : Bool :=
  decide (Endian.canonical te e = Endian.little)

/-- One outcome of `poll_read` on the underlying `AsyncRead` reader:
not ready, an I/O error, or `Ok` with the bytes it copied into the
destination slice.  A reader is a script (list) of such outcomes, consumed
one per `poll_read`; an exhausted script models a closed source, whose
every further read transfers zero bytes. -/
inductive ReadStep
  | pending
  | fail (e : Nat)
  | bytes (bs : List Nat)
deriving DecidableEq, Repr

/-- An `io::Error`, abstracted to the one kind this code constructs itself
plus verbatim propagation of an underlying error code. -/
inductive IOError
  | unexpectedEof
  | underlying (e : Nat)
deriving DecidableEq, Repr

/-- The `ReadEndian` future of `src/futures.rs` / `src/tokio.rs`: the
underlying reader (as its remaining script), the `[u8; N]` buffer, the
`progress` cursor and the endianness.  All reachable states keep
`buffer.length = N`. -/
structure ReadEndian where
  reader : List ReadStep
  buffer : List Nat
  progress : Nat
  endian : Endian
deriving DecidableEq, Repr

/-- Result of one `Future::poll` of `ReadEndian`: `Poll::Pending` with the
suspended state, `Poll::Ready(Ok(decoded))`, or `Poll::Ready(Err(e))`. -/
inductive ReadOutcome
  | pending (s : ReadEndian)
  | ok (v : Nat)
  | err (e : IOError)
deriving DecidableEq, Repr

/-- Overwrite `buf` at offset `off` with the bytes `bs`, leaving the rest
unchanged: the effect of the underlying reader filling the slice
`&mut buffer[off..]` with `bs.length` bytes. -/
def fill_at (buf : List Nat) (off : Nat) (bs : List Nat) : List Nat :=
  buf.take off ++ bs ++ buf.drop (off + bs.length)

/-- The loop body of `ReadEndian::poll` (src/futures.rs lines 45-58,
src/tokio.rs lines 45-60), one script element consumed per `poll_read`:

1. read into `buffer[progress..]` (a slice of length `N - progress`, so a
   contract-abiding reader delivers at most that many bytes, hence the
   clamp `min bs.length (N - progress)`; the tokio `ReadBuf` enforces this
   physically);
2. `Pending` and `Err` return at once;
3. zero bytes transferred returns `Err(UnexpectedEof)`;
4. otherwise advance `progress` and, once `progress ≥ N`, decode the
   buffer with `from_bytes_endian`; else loop. -/
def pollGo (te : TargetEndian) (N : Nat) (endian : Endian) :
    List ReadStep → List Nat → Nat → ReadOutcome
  | [], _, _ => .err .unexpectedEof
  | .pending :: rest, buf, p => .pending ⟨rest, buf, p, endian⟩
  | .fail e :: _, _, _ => .err (.underlying e)
  | .bytes bs :: rest, buf, p =>
    let k := min bs.length (N - p)
    if k = 0 then .err .unexpectedEof
    else
      let buf' := fill_at buf p (bs.take k)
      if N ≤ p + k then .ok (from_bytes_endian te buf' endian)
      else pollGo te N endian rest buf' (p + k)

/-- `ReadEndian::poll`: run the loop on the future's own state. -/
def ReadEndian.poll (te : TargetEndian) (N : Nat) (s : ReadEndian) : ReadOutcome :=
  pollGo te N s.endian s.reader s.buffer s.progress

/-- `ReadEndian::new` (src/futures.rs lines 62-70): zeroed buffer, cursor
at zero. -/
def ReadEndian.new (N : Nat) (reader : List ReadStep) (endian : Endian) : ReadEndian :=
  ⟨reader, List.replicate N 0, 0, endian⟩

/-- One outcome of `poll_write` on the underlying `AsyncWrite` writer:
not ready, an I/O error, or `Ok(n)` accepting `n` bytes of the offered
slice.  An exhausted script models a sink that fails all further writes. -/
inductive WriteStep
  | pending
  | fail (e : Nat)
  | accept (n : Nat)
deriving DecidableEq, Repr

/-- The `WriteArray` future of `src/futures.rs` / `src/tokio.rs`: the
underlying writer (its remaining script plus the bytes it has accepted so
far), the pre-encoded `[u8; N]` buffer and the `progress` cursor. -/
structure WriteArray where
  script : List WriteStep
  written : List Nat
  buffer : List Nat
  progress : Nat
deriving DecidableEq, Repr

/-- Result of one `Future::poll` of `WriteArray`; `ok` and `err` carry the
final state so the sink's accepted bytes and the buffer stay observable. -/
inductive WriteOutcome
  | pending (s : WriteArray)
  | ok (s : WriteArray)
  | err (e : Nat) (s : WriteArray)
deriving DecidableEq, Repr

/-- The state carried by any `WriteOutcome`. -/
def WriteOutcome.stateOf : WriteOutcome → WriteArray
  | .pending s => s
  | .ok s => s
  | .err _ s => s

/-- The loop body of `WriteArray::poll` (src/futures.rs lines 112-124,
src/tokio.rs lines 113-125), one script element per `poll_write`: offer
the slice `&buffer[progress..]`; a contract-abiding sink accepts at most
the offered length (hence the clamp); advance `progress` by the accepted
count — zero is not an error — and return `Ok(())` once `progress ≥ N`,
else loop. -/
def writePollGo (N : Nat) :
    List WriteStep → List Nat → List Nat → Nat → WriteOutcome
  | [], w, buf, p => .err 0 ⟨[], w, buf, p⟩
  | .pending :: rest, w, buf, p => .pending ⟨rest, w, buf, p⟩
  | .fail e :: rest, w, buf, p => .err e ⟨rest, w, buf, p⟩
  | .accept n :: rest, w, buf, p =>
    let offered := buf.drop p
    let k := min n offered.length
    let w' := w ++ offered.take k
    if N ≤ p + k then .ok ⟨rest, w', buf, p + k⟩
    else writePollGo N rest w' buf (p + k)

/-- `WriteArray::poll`: run the loop on the future's own state. -/
def WriteArray.poll (N : Nat) (s : WriteArray) : WriteOutcome :=
  writePollGo N s.script s.written s.buffer s.progress

/-- `WriteArray::new` (src/futures.rs lines 126-134, src/tokio.rs lines
127-135): the value is encoded with `to_bytes_endian` once, eagerly, at
construction; the cursor starts at zero. -/
def WriteArray.new (te : TargetEndian) (N : Nat) (script : List WriteStep)
    (v : Nat) (endian : Endian) : WriteArray :=
  ⟨script, [], to_bytes_endian te N v endian, 0⟩

theorem to_le_bytes_length (n v : Nat) : (to_le_bytes n v).length = n := by
  induction n generalizing v with
  | zero => rfl
  | succ n ih => simp [to_le_bytes, ih]

theorem from_le_to_le (n v : Nat) :
    from_le_bytes (to_le_bytes n v) = v % 256 ^ n := by
  induction n generalizing v with
  | zero => simp [to_le_bytes, from_le_bytes, Nat.mod_one]
  | succ n ih =>
    rw [to_le_bytes, from_le_bytes, ih, pow_succ']
    exact (Nat.mod_mul).symm

theorem from_be_to_be (n v : Nat) :
    from_be_bytes (to_be_bytes n v) = v % 256 ^ n := by
  rw [to_be_bytes, from_be_bytes, List.reverse_reverse, from_le_to_le]

theorem fill_at_length (buf bs : List Nat) (p : Nat) (h : p + bs.length ≤ buf.length) :
    (fill_at buf p bs).length = buf.length := by
  simp only [fill_at, List.length_append, List.length_take, List.length_drop]
  omega

theorem fill_at_take (buf bs : List Nat) (p : Nat) (h : p ≤ buf.length) :
    (fill_at buf p bs).take p = buf.take p := by
  unfold fill_at
  rw [List.append_assoc]
  refine List.take_left' ?_
  simp only [List.length_take]
  omega

theorem fill_at_cons (buf : List Nat) (b : Nat) (bs : List Nat) (p : Nat)
    (h : p ≤ buf.length) :
    fill_at (fill_at buf p [b]) (p + 1) bs = fill_at buf p (b :: bs) := by
  have hA : (buf.take p ++ [b]).length = p + 1 := by
    simp only [List.length_append, List.length_take, List.length_cons, List.length_nil]
    omega
  have hfill : fill_at buf p [b] = (buf.take p ++ [b]) ++ buf.drop (p + 1) := by
    simp [fill_at, List.append_assoc]
  have h1 : (fill_at buf p [b]).take (p + 1) = buf.take p ++ [b] := by
    rw [hfill]
    exact List.take_left' hA
  have h2 : (fill_at buf p [b]).drop (p + 1 + bs.length) = buf.drop (p + 1 + bs.length) := by
    rw [hfill, show p + 1 + bs.length = (buf.take p ++ [b]).length + bs.length by rw [hA],
      List.drop_append, List.drop_drop]
    congr 1
    omega
  show (fill_at buf p [b]).take (p + 1) ++ bs ++ (fill_at buf p [b]).drop (p + 1 + bs.length)
      = buf.take p ++ (b :: bs) ++ buf.drop (p + (b :: bs).length)
  rw [h1, h2]
  simp [List.append_assoc]
  congr 1
  omega

theorem writePollGo_stateOf_buffer (N : Nat) :
    ∀ (scr : List WriteStep) (w buf : List Nat) (p : Nat),
      (writePollGo N scr w buf p).stateOf.buffer = buf
  | [], _, _, _ => rfl
  | .pending :: _, _, _, _ => rfl
  | .fail _ :: _, _, _, _ => rfl
  | .accept n :: rest, w, buf, p => by
    simp only [writePollGo]
    split
    · rfl
    · exact writePollGo_stateOf_buffer N rest _ buf _

theorem pollGo_pending_frame (te : TargetEndian) (N : Nat) (e : Endian) :
    ∀ (rdr : List ReadStep) (buf : List Nat) (p : Nat) (s' : ReadEndian),
      buf.length = N → pollGo te N e rdr buf p = .pending s' →
      s'.buffer.take p = buf.take p ∧ p ≤ s'.progress ∧ s'.buffer.length = N
  | [], buf, p, s', hlen, h => by simp [pollGo] at h
  | .pending :: rest, buf, p, s', hlen, h => by
    simp only [pollGo, ReadOutcome.pending.injEq] at h
    subst h
    exact ⟨rfl, Nat.le_refl p, hlen⟩
  | .fail e' :: rest, buf, p, s', hlen, h => by simp [pollGo] at h
  | .bytes bs :: rest, buf, p, s', hlen, h => by
    simp only [pollGo] at h
    split at h
    · exact absurd h (by simp)
    · split at h
      · exact absurd h (by simp)
      · rename_i hk hN
        have hk1 : min bs.length (N - p) ≤ bs.length := Nat.min_le_left _ _
        have hk2 : min bs.length (N - p) ≤ N - p := Nat.min_le_right _ _
        have hkpos : 0 < min bs.length (N - p) := Nat.pos_of_ne_zero hk
        have hpN : p < N := by omega
        have htk : (bs.take (min bs.length (N - p))).length = min bs.length (N - p) := by
          simp only [List.length_take]
          omega
        have hlen' : (fill_at buf p (bs.take (min bs.length (N - p)))).length = N := by
          rw [fill_at_length buf _ p (by rw [htk]; omega)]
          exact hlen
        obtain ⟨ih1, ih2, ih3⟩ :=
          pollGo_pending_frame te N e rest
            (fill_at buf p (bs.take (min bs.length (N - p))))
            (p + min bs.length (N - p)) s' hlen' h
        refine ⟨?_, by omega, ih3⟩
        have e1 : s'.buffer.take p = (s'.buffer.take (p + min bs.length (N - p))).take p := by
          rw [List.take_take]
          congr 1
          omega
        rw [e1, ih1, List.take_take, Nat.min_eq_left (by omega),
          fill_at_take buf _ p (by omega)]

theorem pollGo_chunked (te : TargetEndian) (N : Nat) (e : Endian) :
    ∀ (bs : List Nat) (buf : List Nat) (p : Nat),
      buf.length = N → p + bs.length = N → bs ≠ [] →
      pollGo te N e (bs.map fun b => .bytes [b]) buf p
        = .ok (from_bytes_endian te (fill_at buf p bs) e)
  | [], _, _, _, _, hne => absurd rfl hne
  | b :: bs, buf, p, hlen, hN, _ => by
    have hpN : p < N := by
      have := List.length_cons b bs ▸ hN
      omega
    simp only [List.map_cons, pollGo]
    have hmin : min ([b] : List Nat).length (N - p) = 1 := by
      simp only [List.length_cons, List.length_nil]
      omega
    rw [hmin]
    simp only [if_neg (Nat.one_ne_zero), List.take_succ_cons, List.take_nil]
    by_cases hlast : bs = []
    · subst hlast
      have : N ≤ p + 1 := by
        simp only [List.length_cons, List.length_nil] at hN
        omega
      rw [if_pos this]
    · have hbs : 0 < bs.length := List.length_pos.mpr hlast
      have : ¬ N ≤ p + 1 := by
        simp only [List.length_cons] at hN
        omega
      rw [if_neg this]
      rw [pollGo_chunked te N e bs (fill_at buf p [b]) (p + 1)
          (by rw [fill_at_length buf [b] p (by simp; omega)]; exact hlen)
          (by simp only [List.length_cons] at hN; omega) hlast]
      rw [fill_at_cons buf b bs p (by omega)]

theorem pollGo_once (te : TargetEndian) (N : Nat) (e : Endian)
    (bs buf : List Nat) (p : Nat)
    (hN : p + bs.length = N) (hne : bs ≠ []) :
    pollGo te N e [.bytes bs] buf p
      = .ok (from_bytes_endian te (fill_at buf p bs) e) := by
  have hbs : 0 < bs.length := List.length_pos.mpr hne
  simp only [pollGo]
  have hmin : min bs.length (N - p) = bs.length := by omega
  rw [hmin]
  rw [if_neg (by omega), List.take_length, if_pos (by omega)]

theorem writePollGo_chunked (N : Nat) :
    ∀ (m : Nat) (w buf : List Nat) (p : Nat),
      buf.length = N → p + m = N → 0 < m →
      writePollGo N (List.replicate m (.accept 1)) w buf p
        = .ok ⟨[], w ++ buf.drop p, buf, N⟩
  | 0, _, _, _, _, _, hm => absurd hm (by omega)
  | m + 1, w, buf, p, hlen, hN, _ => by
    have hdrop : (buf.drop p).length = m + 1 := by
      rw [List.length_drop]
      omega
    simp only [List.replicate_succ, writePollGo]
    have hmin : min 1 (buf.drop p).length = 1 := by
      rw [hdrop]
      omega
    rw [hmin]
    by_cases hm : m = 0
    · subst hm
      rw [if_pos (by omega)]
      have : (buf.drop p).take 1 = buf.drop p := List.take_of_length_le (by omega)
      rw [this, List.replicate_zero]
      have hpn : p + 1 = N := by omega
      rw [hpn]
    · rw [if_neg (by omega)]
      rw [writePollGo_chunked N m (w ++ (buf.drop p).take 1) buf (p + 1) hlen (by omega)
          (by omega)]
      congr 2
      rw [List.append_assoc]
      congr 1
      have : buf.drop (p + 1) = (buf.drop p).drop 1 := by
        rw [List.drop_drop]
      rw [this, List.take_append_drop]

theorem writePollGo_once (N : Nat) (w buf : List Nat)
    (hlen : buf.length = N) :
    writePollGo N [.accept N] w buf 0 = .ok ⟨[], w ++ buf, buf, N⟩ := by
  simp only [writePollGo, List.drop_zero]
  have hmin : min N buf.length = N := by omega
  rw [hmin, if_pos (show N ≤ 0 + N by omega),
    List.take_of_length_le (show buf.length ≤ N by omega), Nat.zero_add]

/-- Claim C1: for every target byte order, every endianness mode and every
representable bit pattern `v` of byte width `n`, decoding with
`from_bytes_endian` the array produced by `to_bytes_endian` from `v` with
the same mode yields `v` bit-identically. -/
theorem roundtrip_bit_identical (te : TargetEndian) (e : Endian) (n v : Nat)
    (h : v < 256 ^ n) :
    from_bytes_endian te (to_bytes_endian te n v e) e = v := by
  have hle : from_le_bytes (to_le_bytes n v) = v := by
    rw [from_le_to_le, Nat.mod_eq_of_lt h]
  have hbe : from_be_bytes (to_be_bytes n v) = v := by
    rw [from_be_to_be, Nat.mod_eq_of_lt h]
  cases e <;> cases te <;>
    simp [to_bytes_endian, from_bytes_endian, to_ne_bytes, from_ne_bytes, hle, hbe]

theorem roundtrip_bit_identical_witness :
    256 < 256 ^ 2
    ∧ from_bytes_endian .little (to_bytes_endian .little 2 256 .big) .big = 256 :=
  ⟨by norm_num, roundtrip_bit_identical .little .big 2 256 (by norm_num)⟩

/-- Claim C3: `to_bytes_endian` sends `Little` to the little-endian
encoding, `Big` and `Network` to the big-endian encoding, and `Native` to
the native encoding, which equals the big encoding on a big-endian target
and the little encoding on a little-endian target; `from_bytes_endian`
dispatches identically. -/
theorem endian_dispatch (te : TargetEndian) (n v : Nat) (bs : List Nat) :
    to_bytes_endian te n v .little = to_le_bytes n v
    ∧ to_bytes_endian te n v .big = to_be_bytes n v
    ∧ to_bytes_endian te n v .network = to_be_bytes n v
    ∧ to_bytes_endian te n v .native = to_ne_bytes te n v
    ∧ to_ne_bytes .big n v = to_be_bytes n v
    ∧ to_ne_bytes .little n v = to_le_bytes n v
    ∧ from_bytes_endian te bs .little = from_le_bytes bs
    ∧ from_bytes_endian te bs .big = from_be_bytes bs
    ∧ from_bytes_endian te bs .network = from_be_bytes bs
    ∧ from_bytes_endian te bs .native = from_ne_bytes te bs
    ∧ from_ne_bytes .big bs = from_be_bytes bs
    ∧ from_ne_bytes .little bs = from_le_bytes bs := by
  cases te <;>
    exact ⟨rfl, rfl, rfl, rfl, rfl, rfl, rfl, rfl, rfl, rfl, rfl, rfl⟩

/-- Claim C5 (counterexample): decoding the byte array `[1, 0]` with
Little mode yields 1 on either build target, not 256 as the claim
states. -/
theorem byte_order_example_counterexample :
    from_bytes_endian .little [1, 0] .little = 1
    ∧ from_bytes_endian .big [1, 0] .little = 1
    ∧ ¬ from_bytes_endian .little [1, 0] .little = 256 := by
  decide

/-- Claim C5 (amended): encoding the 16-bit value 256 with Big mode yields
`[1, 0]` and with Little mode yields `[0, 1]`; decoding `[0, 1]` with
Little mode yields 256, while decoding `[1, 0]` with Little mode yields
1. -/
theorem byte_order_example (te : TargetEndian) :
    to_bytes_endian te 2 256 .big = [1, 0]
    ∧ to_bytes_endian te 2 256 .little = [0, 1]
    ∧ from_bytes_endian te [0, 1] .little = 256
    ∧ from_bytes_endian te [1, 0] .little = 1 := by
  cases te <;> decide

/-- Claim C6: `canonical` maps Little to Little, Big and Network to Big,
and Native to exactly the build target's byte order; `is_big` holds
exactly when the canonical form is Big and `is_little` exactly when it is
Little. -/
theorem canonical_resolution (te : TargetEndian) (e : Endian) :
    Endian.canonical te .little = .little
    ∧ Endian.canonical te .big = .big
    ∧ Endian.canonical te .network = .big
    ∧ Endian.canonical .big .native = .big
    ∧ Endian.canonical .little .native = .little
    ∧ (Endian.is_big te e = true ↔ Endian.canonical te e = .big)
    ∧ (Endian.is_little te e = true ↔ Endian.canonical te e = .little) := by
  cases te <;> cases e <;> decide

/-- Claim C10: for every Endian value exactly one of `is_big` and
`is_little` is true, and `canonical` is idempotent. -/
theorem is_big_is_little_exact (te : TargetEndian) (e : Endian) :
    ((Endian.is_big te e = true ∧ Endian.is_little te e = false)
      ∨ (Endian.is_big te e = false ∧ Endian.is_little te e = true))
    ∧ Endian.canonical te (Endian.canonical te e) = Endian.canonical te e := by
  cases te <;> cases e <;> decide

/-- Claim C2: when the underlying reader reports zero bytes transferred
(a ready read delivering no bytes, or a closed source) while the cursor
is still below `N`, the read future completes at once with the
unexpected-end-of-input error: terminal, not retried, and in particular
never a success carrying a truncated or zero-padded value.  The same
`pollGo` loop embeds both the `futures` and the `tokio` poll bodies. -/
theorem read_zero_transfer_eof (te : TargetEndian) (N : Nat) (s : ReadEndian)
    (rest : List ReadStep)
    ( _hcur : s.progress < N)
    (hzero : s.reader = [] ∨ s.reader = ReadStep.bytes [] :: rest) :
    ReadEndian.poll te N s = .err .unexpectedEof := by
  obtain ⟨rdr, buf, p, e⟩ := s
  dsimp only at hzero
  rcases hzero with h | h <;> subst h <;> simp [ReadEndian.poll, pollGo]

theorem read_zero_transfer_eof_witness :
    (0 : Nat) < 2
    ∧ ReadEndian.poll .little 2 ⟨[ReadStep.bytes []], [0, 0], 0, .big⟩
        = .err .unexpectedEof :=
  ⟨by norm_num,
    read_zero_transfer_eof .little 2 ⟨[ReadStep.bytes []], [0, 0], 0, .big⟩ []
      (by norm_num) (Or.inr rfl)⟩

/-- Claim C4 (counterexample): instantiated at `N = 0`, the read future
does not complete immediately with a decoded value: it still polls the
reader (a pending reader suspends it), and a ready reader transfers zero
bytes into the empty slice, which completes the future with the
unexpected-end-of-input error. -/
theorem zero_width_counterexample :
    ReadEndian.poll .little 0 ⟨[ReadStep.bytes [7]], [], 0, .little⟩
        = .err .unexpectedEof
    ∧ ReadEndian.poll .little 0 ⟨[ReadStep.pending], [], 0, .little⟩
        = .pending ⟨[], [], 0, .little⟩ := by
  decide

/-- Claim C4 (amended): at `N = 0` the first drive step still issues a
read; whatever bytes a ready reader offers are clamped to the empty
destination slice, so the zero-transfer check fires and the future
completes with the unexpected-end-of-input error, never with a decoded
value. -/
theorem zero_width_reads_then_eof (te : TargetEndian) (e : Endian)
    (bs : List Nat) (rest : List ReadStep) (buf : List Nat) (p : Nat) :
    ReadEndian.poll te 0 ⟨ReadStep.bytes bs :: rest, buf, p, e⟩
      = .err .unexpectedEof := by
  simp [ReadEndian.poll, pollGo, Nat.zero_sub, Nat.min_zero]

/-- Claim C7: a source delivering one byte per poll produces the same
outcome as one delivering all `N` bytes at once, and a sink accepting one
byte per poll accepts the same final byte sequence as one accepting all
`N` at once; moreover a drive step that suspends has touched only the
unfilled suffix: the buffer below the cursor is unchanged and the cursor
never decreases. -/
theorem partial_transfer_equivalence (te : TargetEndian) (e : Endian)
    (N : Nat) (bs : List Nat) (s s' : ReadEndian)
    (hlen : bs.length = N) (hpos : 0 < N)
    (hbuf : s.buffer.length = N)
    (hpend : ReadEndian.poll te N s = .pending s') :
    ReadEndian.poll te N (ReadEndian.new N (bs.map fun b => ReadStep.bytes [b]) e)
      = ReadEndian.poll te N (ReadEndian.new N [ReadStep.bytes bs] e)
    ∧ WriteArray.poll N ⟨List.replicate N (WriteStep.accept 1), [], bs, 0⟩
      = WriteArray.poll N ⟨[WriteStep.accept N], [], bs, 0⟩
    ∧ s'.buffer.take s.progress = s.buffer.take s.progress
    ∧ s.progress ≤ s'.progress := by
  have hne : bs ≠ [] := by
    intro hnil
    rw [hnil] at hlen
    simp at hlen
    omega
  have frame := pollGo_pending_frame te N s.endian s.reader s.buffer s.progress s' hbuf hpend
  refine ⟨?_, ?_, frame.1, frame.2.1⟩
  · show pollGo te N e (bs.map fun b => ReadStep.bytes [b]) (List.replicate N 0) 0
        = pollGo te N e [ReadStep.bytes bs] (List.replicate N 0) 0
    rw [pollGo_chunked te N e bs (List.replicate N 0) 0 (by simp) (by omega) hne,
      pollGo_once te N e bs (List.replicate N 0) 0 (by omega) hne]
  · show writePollGo N (List.replicate N (WriteStep.accept 1)) [] bs 0
        = writePollGo N [WriteStep.accept N] [] bs 0
    rw [writePollGo_chunked N N [] bs 0 hlen (by omega) hpos,
      writePollGo_once N [] bs hlen, List.drop_zero]

theorem partial_transfer_equivalence_witness :
    ([1, 0] : List Nat).length = 2
    ∧ (0 : Nat) < 2
    ∧ ([9, 9] : List Nat).length = 2
    ∧ ReadEndian.poll .little 2 ⟨[ReadStep.pending], [9, 9], 0, .big⟩
        = .pending ⟨[], [9, 9], 0, .big⟩
    ∧ (ReadEndian.poll .little 2
          (ReadEndian.new 2 [ReadStep.bytes [1], ReadStep.bytes [0]] .big)
        = ReadEndian.poll .little 2 (ReadEndian.new 2 [ReadStep.bytes [1, 0]] .big)
      ∧ WriteArray.poll 2 ⟨[WriteStep.accept 1, WriteStep.accept 1], [], [1, 0], 0⟩
        = WriteArray.poll 2 ⟨[WriteStep.accept 2], [], [1, 0], 0⟩
      ∧ ([9, 9] : List Nat).take 0 = ([9, 9] : List Nat).take 0
      ∧ (0 : Nat) ≤ 0) :=
  ⟨rfl, by norm_num, rfl, rfl,
    partial_transfer_equivalence .little .big 2 [1, 0]
      ⟨[ReadStep.pending], [9, 9], 0, .big⟩ ⟨[], [9, 9], 0, .big⟩
      rfl (by norm_num) rfl rfl⟩

/-- Claim C8: a zero-byte transfer reported by the sink while the cursor
is below `N` is not an error: the write drive step continues polling from
the unchanged cursor with nothing appended to the sink, unlike the read
side where zero bytes means end of input. -/
theorem write_zero_not_error (N : Nat) (rest : List WriteStep)
    (w buf : List Nat) (p : Nat) (h : p < N) :
    WriteArray.poll N ⟨WriteStep.accept 0 :: rest, w, buf, p⟩
      = WriteArray.poll N ⟨rest, w, buf, p⟩ := by
  show writePollGo N (WriteStep.accept 0 :: rest) w buf p = writePollGo N rest w buf p
  simp only [writePollGo, Nat.zero_min, List.take_zero, List.append_nil, Nat.add_zero]
  rw [if_neg (by omega)]

theorem write_zero_not_error_witness :
    (0 : Nat) < 2
    ∧ WriteArray.poll 2 ⟨[WriteStep.accept 0, WriteStep.accept 2], [], [5, 6], 0⟩
      = WriteArray.poll 2 ⟨[WriteStep.accept 2], [], [5, 6], 0⟩ :=
  ⟨by norm_num, write_zero_not_error 2 [WriteStep.accept 2] [] [5, 6] 0 (by norm_num)⟩

/-- Claim C9: `WriteArray.new` computes the `N`-byte encoding exactly
once, eagerly, at construction, with the cursor at zero; and no drive
step ever changes the buffer — the state carried by any poll outcome has
the same buffer as the state polled. -/
theorem write_encodes_once (te : TargetEndian) (N : Nat)
    (script : List WriteStep) (v : Nat) (e : Endian) (s : WriteArray) :
    (WriteArray.new te N script v e).buffer = to_bytes_endian te N v e
    ∧ (WriteArray.new te N script v e).progress = 0
    ∧ (WriteArray.poll N s).stateOf.buffer = s.buffer :=
  ⟨rfl, rfl, writePollGo_stateOf_buffer N s.script s.written s.buffer s.progress⟩

end Bitendian
